import Mathlib

set_option maxHeartbeats 1000000

namespace IPA

/-!
Shallow embedding of the coordination core of the `ipa` repository:
the receive buffer (src/helpers/buffers/receive.rs), the query processor
(src/query/processor.rs) and the malicious secret-share algebra
(src/secret_sharing/replicated/malicious/additive_share.rs).
-/

/-! ### Receive buffer (src/helpers/buffers/receive.rs) -/

/-!
Channels (`Nat`, a `(role, step)` pair), record ids (`Nat`) and the
oneshot senders handed in with receive requests are modelled as plain `Nat`
codes.
-/

/-- Fixed payload size of the message fabric: 8 bytes in the current design. -/
def MESSAGE_PAYLOAD_SIZE_BYTES : Nat := 8

/-- A message payload, modelled as its list of bytes. -/
abbrev MessagePayload := List Nat

/-- Slot of the receive buffer: either an outstanding request (holding the
oneshot sender) or a message that arrived before anyone asked for it. -/
inductive ReceiveBufItem where
  | Requested (sender : Nat)
  | Received (payload : MessagePayload)
deriving DecidableEq

/-- The receive buffer: per channel, a map `Nat -> slot` plus the running
expected-arrival counter (`record_ids` in the source, default 0). -/
structure ReceiveBuffer where
  inner : Nat → Nat → Option ReceiveBufItem
  record_ids : Nat → Nat

/-- The `Default` buffer: both maps empty. -/
def initialBuffer : ReceiveBuffer := ⟨fun _ _ => none, fun _ => 0⟩

/-- Observable event: a payload was delivered to a requester. -/
inductive RBEvent where
  | delivered (ch : Nat) (r : Nat) (sender : Nat) (payload : MessagePayload)
deriving DecidableEq

/-- The panics the receive buffer can raise. -/
inductive RBPanic where
  | duplicateRequest (r : Nat)
  | duplicateMessage (r : Nat)
  | payloadConversion
deriving DecidableEq

/-- Point update of the slot map. -/
def updateSlot (f : Nat → Nat → Option ReceiveBufItem) (c : Nat)
    (r : Nat) (v : Option ReceiveBufItem) : Nat → Nat → Option ReceiveBufItem :=
  fun c' r' => if c' = c ∧ r' = r then v else f c' r'

theorem updateSlot_ne (f : Nat → Nat → Option ReceiveBufItem) (c r : Nat)
    (v : Option ReceiveBufItem) (c' r' : Nat) (h : ¬(c' = c ∧ r' = r)) :
    updateSlot f c r v c' r' = f c' r' := by
  simp only [updateSlot, if_neg h]

theorem updateSlot_self (f : Nat → Nat → Option ReceiveBufItem) (c r : Nat)
    (v : Option ReceiveBufItem) : updateSlot f c r v c r = v := by
  simp [updateSlot]

/-- `ReceiveBuffer::receive_request`: a request finding `Received` removes the
slot and delivers the payload; a request finding no slot registers `Requested`;
a request finding `Requested` panics. -/
def receive_request (buf : ReceiveBuffer) (channel_id : Nat) (record_id : Nat)
    (sender : Nat) : Except RBPanic (ReceiveBuffer × List RBEvent) :=
  match buf.inner channel_id record_id with
  | some (.Requested _) => .error (.duplicateRequest record_id)
  | some (.Received payload) =>
      .ok ({ buf with inner := updateSlot buf.inner channel_id record_id none },
        [.delivered channel_id record_id sender payload])
  | none =>
      .ok ({ buf with
              inner := updateSlot buf.inner channel_id record_id
                (some (.Requested sender)) }, [])

/-- Helper for `chunksOf` with an explicit fuel argument, so that the
function is structurally recursive and computes by plain reduction. -/
def chunksOfAux (n : Nat) : Nat → List α → List (List α)
  | 0, _ => []
  | _ + 1, [] => []
  | fuel + 1, x :: xs => (x :: xs).take n :: chunksOfAux n fuel (xs.drop (n - 1))

/-- Rust `slice::chunks n` for `n ≥ 1`: split a list into consecutive slices of
size `n`, the last one possibly shorter. -/
def chunksOf (n : Nat) (l : List α) : List (List α) :=
  chunksOfAux n l.length l

theorem chunksOfAux_congr (n : Nat) :
    ∀ (fuel1 : Nat) (l : List α) (fuel2 : Nat), l.length ≤ fuel1 → l.length ≤ fuel2 →
      chunksOfAux n fuel1 l = chunksOfAux n fuel2 l := by
  intro fuel1
  induction fuel1 with
  | zero =>
    intro l fuel2 h1 _
    have hl : l = [] := List.length_eq_zero.mp (Nat.le_zero.mp h1)
    subst hl
    cases fuel2 <;> rfl
  | succ f ih =>
    intro l fuel2 h1 h2
    cases l with
    | nil => cases fuel2 <;> rfl
    | cons x xs =>
      cases fuel2 with
      | zero => simp at h2
      | succ f2 =>
        show _ :: chunksOfAux n f (xs.drop (n - 1)) =
          _ :: chunksOfAux n f2 (xs.drop (n - 1))
        congr 1
        have hd : (xs.drop (n - 1)).length ≤ xs.length := by
          rw [List.length_drop]; omega
        have hx1 : xs.length ≤ f := by simpa using h1
        have hx2 : xs.length ≤ f2 := by simpa using h2
        exact ih (xs.drop (n - 1)) f2 (le_trans hd hx1) (le_trans hd hx2)

theorem chunksOf_cons (n : Nat) (x : α) (xs : List α) :
    chunksOf n (x :: xs) = (x :: xs).take n :: chunksOf n (xs.drop (n - 1)) := by
  show chunksOfAux n (xs.length + 1) (x :: xs) = _
  rw [chunksOfAux]
  congr 1
  apply chunksOfAux_congr
  · rw [List.length_drop]; omega
  · exact le_refl _

/-- The `msg.try_into()` conversion of a slice into a fixed 8-byte payload;
`none` models the panic on a size mismatch. -/
def tryIntoPayload (msg : List Nat) : Option MessagePayload :=
  if msg.length = MESSAGE_PAYLOAD_SIZE_BYTES then some msg else none

/-- Loop body of `ReceiveBuffer::receive_messages`: process each chunk at the
channel's current offset, then advance the offset.  `evs` accumulates the
delivery events. -/
def processChunks (ch : Nat) : ReceiveBuffer → List RBEvent → List (List Nat) →
    Except RBPanic (ReceiveBuffer × List RBEvent)
  | buf, evs, [] => .ok (buf, evs)
  | buf, evs, msg :: rest =>
    match tryIntoPayload msg with
    | none => .error .payloadConversion
    | some payload =>
      match buf.inner ch (buf.record_ids ch) with
      | some (.Requested s) =>
          processChunks ch
            { inner := updateSlot buf.inner ch (buf.record_ids ch) none,
              record_ids := fun c => if c = ch then buf.record_ids ch + 1 else buf.record_ids c }
            (evs ++ [.delivered ch (buf.record_ids ch) s payload]) rest
      | some (.Received _) => .error (.duplicateMessage (buf.record_ids ch))
      | none =>
          processChunks ch
            { inner := updateSlot buf.inner ch (buf.record_ids ch)
                (some (.Received payload)),
              record_ids := fun c => if c = ch then buf.record_ids ch + 1 else buf.record_ids c }
            evs rest

/-- `ReceiveBuffer::receive_messages`: slice the byte chunk into fixed-size
payloads and process them at consecutive record ids starting at the channel's
counter. -/
def receive_messages (buf : ReceiveBuffer) (channel_id : Nat) (messages : List Nat) :
    Except RBPanic (ReceiveBuffer × List RBEvent) :=
  processChunks channel_id buf [] (chunksOf MESSAGE_PAYLOAD_SIZE_BYTES messages)

/-- An operation on the receive buffer: a receive request or an arriving chunk. -/
inductive RBOp where
  | request (ch : Nat) (r : Nat) (sender : Nat)
  | arrive (ch : Nat) (messages : List Nat)

/-- One step on the buffer, threading the cumulative event list. -/
def rbStep (buf : ReceiveBuffer) (evs : List RBEvent) :
    RBOp → Except RBPanic (ReceiveBuffer × List RBEvent)
  | .request ch r s =>
      match receive_request buf ch r s with
      | .error e => .error e
      | .ok (buf', δ) => .ok (buf', evs ++ δ)
  | .arrive ch msgs => processChunks ch buf evs (chunksOf MESSAGE_PAYLOAD_SIZE_BYTES msgs)

/-- Run a sequence of operations, accumulating delivery events. -/
def rbRun : ReceiveBuffer → List RBEvent → List RBOp →
    Except RBPanic (ReceiveBuffer × List RBEvent)
  | buf, evs, [] => .ok (buf, evs)
  | buf, evs, op :: ops =>
    match rbStep buf evs op with
    | .error e => .error e
    | .ok (buf', evs') => rbRun buf' evs' ops

/-- Does this event deliver record `r` on channel `ch`? -/
def isDeliveryFor (ch : Nat) (r : Nat) : RBEvent → Bool
  | .delivered ch' r' _ _ => ch' == ch && r' == r

/-- Number of deliveries of record `r` on channel `ch` in the event list. -/
def dcount (evs : List RBEvent) (ch : Nat) (r : Nat) : Nat :=
  (evs.filter (isDeliveryFor ch r)).length

/-- Inductive invariant of the receive buffer: every record is delivered at
most once; a delivered record lies strictly below the arrival counter and has
no `Received` slot; every `Received` slot lies strictly below the counter. -/
def RBInv (buf : ReceiveBuffer) (evs : List RBEvent) : Prop :=
  ∀ ch r,
    dcount evs ch r ≤ 1 ∧
    (1 ≤ dcount evs ch r →
      r < buf.record_ids ch ∧ ∀ p, buf.inner ch r ≠ some (.Received p)) ∧
    (∀ p, buf.inner ch r = some (.Received p) → r < buf.record_ids ch)

theorem dcount_append (evs evs' : List RBEvent) (ch : Nat) (r : Nat) :
    dcount (evs ++ evs') ch r = dcount evs ch r + dcount evs' ch r := by
  simp [dcount, List.filter_append]

theorem dcount_single (ch : Nat) (r : Nat) (ch' : Nat) (r' : Nat)
    (s : Nat) (p : MessagePayload) :
    dcount [RBEvent.delivered ch' r' s p] ch r = if ch' = ch ∧ r' = r then 1 else 0 := by
  by_cases h : ch' = ch ∧ r' = r
  · simp [dcount, isDeliveryFor, h.1, h.2]
  · have : (ch' == ch && r' == r) = false := by
      rcases not_and_or.mp h with h1 | h1 <;> simp [h1]
    simp [dcount, isDeliveryFor, this, h]

theorem RBInv_initial : RBInv initialBuffer [] := by
  intro ch r
  refine ⟨by simp [dcount], ?_, ?_⟩
  · intro h; simp [dcount] at h
  · intro p h; simp [initialBuffer] at h

theorem receive_request_inv (buf : ReceiveBuffer) (evs : List RBEvent)
    (ch : Nat) (r : Nat) (s : Nat)
    (h : RBInv buf evs) (buf' : ReceiveBuffer) (δ : List RBEvent)
    (hok : receive_request buf ch r s = .ok (buf', δ)) :
    RBInv buf' (evs ++ δ) := by
  cases hslot : buf.inner ch r with
  | none =>
    simp only [receive_request, hslot, Except.ok.injEq, Prod.mk.injEq] at hok
    obtain ⟨hb, hd⟩ := hok
    subst hb; subst hd
    intro ch' r'
    obtain ⟨h1, h2, h3⟩ := h ch' r'
    by_cases hcr : ch' = ch ∧ r' = r
    · refine ⟨by simpa using h1, ?_, ?_⟩
      · intro hd
        refine ⟨(h2 (by simpa using hd)).1, ?_⟩
        intro p
        simp [updateSlot, hcr]
      · intro p hp
        simp [updateSlot, hcr] at hp
    · refine ⟨by simpa using h1, ?_, ?_⟩
      · intro hd
        refine ⟨(h2 (by simpa using hd)).1, ?_⟩
        intro p
        simpa [updateSlot, hcr] using (h2 (by simpa using hd)).2 p
      · intro p hp
        simp only [updateSlot, if_neg hcr] at hp
        exact h3 p hp
  | some item =>
    cases item with
    | Requested s0 => simp [receive_request, hslot] at hok
    | Received payload =>
      simp only [receive_request, hslot, Except.ok.injEq, Prod.mk.injEq] at hok
      obtain ⟨hb, hd⟩ := hok
      subst hb; subst hd
      intro ch' r'
      obtain ⟨h1, h2, h3⟩ := h ch' r'
      by_cases hcr : ch' = ch ∧ r' = r
      · obtain ⟨hc, hr⟩ := hcr
        subst hc; subst hr
        have h0 : dcount evs ch' r' = 0 := by
          by_contra hne
          exact (h2 (by omega)).2 payload hslot
        rw [dcount_append, dcount_single]
        simp only [h0, eq_self_iff_true, and_self, if_true]
        refine ⟨by omega, ?_, ?_⟩
        · intro _
          exact ⟨h3 payload hslot, by intro p; simp [updateSlot]⟩
        · intro p hp
          simp [updateSlot] at hp
      · rw [dcount_append, dcount_single]
        have hcond : ¬(ch = ch' ∧ r = r') := by
          intro hcc; exact hcr ⟨hcc.1.symm, hcc.2.symm⟩
        rw [if_neg hcond]
        refine ⟨by omega, ?_, ?_⟩
        · intro hd
          refine ⟨(h2 (by omega)).1, ?_⟩
          intro p
          simpa [updateSlot, hcr] using (h2 (by omega)).2 p
        · intro p hp
          simp only [updateSlot, if_neg hcr] at hp
          exact h3 p hp

theorem inv_arrive_requested (buf : ReceiveBuffer) (evs : List RBEvent) (ch : Nat)
    (s : Nat) (p : MessagePayload) (h : RBInv buf evs)
    (hslot : buf.inner ch (buf.record_ids ch) = some (.Requested s)) :
    RBInv
      { inner := updateSlot buf.inner ch (buf.record_ids ch) none,
        record_ids := fun c => if c = ch then buf.record_ids ch + 1 else buf.record_ids c }
      (evs ++ [.delivered ch (buf.record_ids ch) s p]) := by
  intro ch' r'
  obtain ⟨h1, h2, h3⟩ := h ch' r'
  by_cases hcr : ch' = ch ∧ r' = buf.record_ids ch
  · obtain ⟨hc, hr⟩ := hcr
    subst hc
    have h0 : dcount evs ch' r' = 0 := by
      by_contra hne
      have := (h2 (by omega)).1
      omega
    rw [dcount_append, dcount_single]
    rw [if_pos ⟨rfl, hr.symm⟩]
    refine ⟨by omega, ?_, ?_⟩
    · intro _
      refine ⟨by simp [hr], ?_⟩
      intro q
      simp [updateSlot, hr]
    · intro q hq
      simp [updateSlot, hr] at hq
  · have hcond : ¬(ch = ch' ∧ buf.record_ids ch = r') := by
      intro hcc; exact hcr ⟨hcc.1.symm, hcc.2.symm⟩
    rw [dcount_append, dcount_single, if_neg hcond]
    refine ⟨by omega, ?_, ?_⟩
    · intro hd
      have hlt := (h2 (by omega)).1
      refine ⟨?_, ?_⟩
      · by_cases hch : ch' = ch
        · subst hch; simp only [eq_self_iff_true, if_true]; omega
        · simp only [if_neg hch]; exact hlt
      · intro q
        simpa [updateSlot, hcr] using (h2 (by omega)).2 q
    · intro q hq
      simp only [updateSlot, if_neg hcr] at hq
      have := h3 q hq
      by_cases hch : ch' = ch
      · subst hch; simp only [eq_self_iff_true, if_true]; omega
      · simp only [if_neg hch]; exact this

theorem inv_arrive_vacant (buf : ReceiveBuffer) (evs : List RBEvent) (ch : Nat)
    (p : MessagePayload) (h : RBInv buf evs)
    (hslot : buf.inner ch (buf.record_ids ch) = none) :
    RBInv
      { inner := updateSlot buf.inner ch (buf.record_ids ch) (some (.Received p)),
        record_ids := fun c => if c = ch then buf.record_ids ch + 1 else buf.record_ids c }
      evs := by
  intro ch' r'
  obtain ⟨h1, h2, h3⟩ := h ch' r'
  by_cases hcr : ch' = ch ∧ r' = buf.record_ids ch
  · obtain ⟨hc, hr⟩ := hcr
    subst hc
    refine ⟨h1, ?_, ?_⟩
    · intro hd
      have := (h2 hd).1
      omega
    · intro q hq
      simp only [eq_self_iff_true, if_true]
      omega
  · refine ⟨h1, ?_, ?_⟩
    · intro hd
      have hlt := (h2 hd).1
      refine ⟨?_, ?_⟩
      · by_cases hch : ch' = ch
        · subst hch; simp only [eq_self_iff_true, if_true]; omega
        · simp only [if_neg hch]; exact hlt
      · intro q
        simpa [updateSlot, hcr] using (h2 hd).2 q
    · intro q hq
      simp only [updateSlot, if_neg hcr] at hq
      have := h3 q hq
      by_cases hch : ch' = ch
      · subst hch; simp only [eq_self_iff_true, if_true]; omega
      · simp only [if_neg hch]; exact this

theorem processChunks_inv (ch : Nat) :
    ∀ chunks buf evs, RBInv buf evs →
      ∀ buf' evs', processChunks ch buf evs chunks = .ok (buf', evs') →
      RBInv buf' evs' := by
  intro chunks
  induction chunks with
  | nil =>
    intro buf evs h buf' evs' hok
    simp only [processChunks, Except.ok.injEq, Prod.mk.injEq] at hok
    obtain ⟨hb, hd⟩ := hok
    subst hb; subst hd
    exact h
  | cons msg rest ih =>
    intro buf evs h buf' evs' hok
    cases htry : tryIntoPayload msg with
    | none => simp [processChunks, htry] at hok
    | some payload =>
      cases hslot : buf.inner ch (buf.record_ids ch) with
      | none =>
        simp only [processChunks, htry, hslot] at hok
        exact ih _ _ (inv_arrive_vacant buf evs ch payload h hslot) buf' evs' hok
      | some item =>
        cases item with
        | Requested s =>
          simp only [processChunks, htry, hslot] at hok
          exact ih _ _ (inv_arrive_requested buf evs ch s payload h hslot) buf' evs' hok
        | Received q => simp [processChunks, htry, hslot] at hok

theorem rbStep_inv (buf : ReceiveBuffer) (evs : List RBEvent) (op : RBOp)
    (h : RBInv buf evs) (buf' : ReceiveBuffer) (evs' : List RBEvent)
    (hok : rbStep buf evs op = .ok (buf', evs')) : RBInv buf' evs' := by
  cases op with
  | request ch r s =>
    simp only [rbStep] at hok
    cases hreq : receive_request buf ch r s with
    | error e => rw [hreq] at hok; cases hok
    | ok out =>
      rw [hreq] at hok
      obtain ⟨b, δ⟩ := out
      simp only [Except.ok.injEq, Prod.mk.injEq] at hok
      obtain ⟨hb, hd⟩ := hok
      subst hb; subst hd
      exact receive_request_inv buf evs ch r s h b δ hreq
  | arrive ch msgs =>
    simp only [rbStep] at hok
    exact processChunks_inv ch _ buf evs h buf' evs' hok

theorem rbRun_inv :
    ∀ ops buf evs, RBInv buf evs →
      ∀ buf' evs', rbRun buf evs ops = .ok (buf', evs') → RBInv buf' evs' := by
  intro ops
  induction ops with
  | nil =>
    intro buf evs h buf' evs' hok
    simp only [rbRun, Except.ok.injEq, Prod.mk.injEq] at hok
    obtain ⟨hb, hd⟩ := hok
    subst hb; subst hd
    exact h
  | cons op rest ih =>
    intro buf evs h buf' evs' hok
    simp only [rbRun] at hok
    cases hstep : rbStep buf evs op with
    | error e => rw [hstep] at hok; cases hok
    | ok out =>
      rw [hstep] at hok
      obtain ⟨b, δ⟩ := out
      exact ih b δ (rbStep_inv buf evs op h b δ hstep) buf' evs' hok

theorem chunksOf_single (msgs : List Nat) (h : msgs.length = MESSAGE_PAYLOAD_SIZE_BYTES) :
    chunksOf MESSAGE_PAYLOAD_SIZE_BYTES msgs = [msgs] := by
  cases msgs with
  | nil => simp [MESSAGE_PAYLOAD_SIZE_BYTES] at h
  | cons x xs =>
    have hx : xs.length = 7 := by
      simp only [List.length_cons, MESSAGE_PAYLOAD_SIZE_BYTES] at h
      omega
    rw [chunksOf_cons]
    have h1 : (x :: xs).take MESSAGE_PAYLOAD_SIZE_BYTES = x :: xs := by
      apply List.take_of_length_le
      simp [MESSAGE_PAYLOAD_SIZE_BYTES, hx]
    have h2 : xs.drop (MESSAGE_PAYLOAD_SIZE_BYTES - 1) = [] := by
      apply List.drop_eq_nil_of_le
      simp [MESSAGE_PAYLOAD_SIZE_BYTES, hx]
    rw [h1, h2]
    rfl

/-- C1 (receive-buffer rendezvous): for every channel and record id, a request
finding a `Received` payload removes it and delivers it to the requester; a
request finding no slot registers a `Requested` slot; a request finding an
outstanding `Requested` slot (a second request for the same record id) panics.
An arriving payload finding a `Requested` slot fulfills and removes it; one
finding no slot is stored as `Received`; one colliding with an
already-`Received` payload panics.  Consequently, in every panic-free run from
the empty buffer a record id is delivered at most once on each channel. -/
theorem receive_buffer_rendezvous :
    (∀ buf ch r s p, buf.inner ch r = some (.Received p) →
      ∃ buf', receive_request buf ch r s = .ok (buf', [.delivered ch r s p]) ∧
        buf'.inner ch r = none ∧
        (∀ c q, ¬(c = ch ∧ q = r) → buf'.inner c q = buf.inner c q) ∧
        buf'.record_ids = buf.record_ids) ∧
    (∀ buf ch r s, buf.inner ch r = none →
      ∃ buf', receive_request buf ch r s = .ok (buf', []) ∧
        buf'.inner ch r = some (.Requested s) ∧
        (∀ c q, ¬(c = ch ∧ q = r) → buf'.inner c q = buf.inner c q) ∧
        buf'.record_ids = buf.record_ids) ∧
    (∀ buf ch r s s0, buf.inner ch r = some (.Requested s0) →
      receive_request buf ch r s = .error (.duplicateRequest r)) ∧
    (∀ buf ch msgs s, msgs.length = MESSAGE_PAYLOAD_SIZE_BYTES →
      buf.inner ch (buf.record_ids ch) = some (.Requested s) →
      ∃ buf', receive_messages buf ch msgs =
          .ok (buf', [.delivered ch (buf.record_ids ch) s msgs]) ∧
        buf'.inner ch (buf.record_ids ch) = none ∧
        buf'.record_ids ch = buf.record_ids ch + 1) ∧
    (∀ buf ch msgs, msgs.length = MESSAGE_PAYLOAD_SIZE_BYTES →
      buf.inner ch (buf.record_ids ch) = none →
      ∃ buf', receive_messages buf ch msgs = .ok (buf', []) ∧
        buf'.inner ch (buf.record_ids ch) = some (.Received msgs) ∧
        buf'.record_ids ch = buf.record_ids ch + 1) ∧
    (∀ buf ch msgs p, msgs.length = MESSAGE_PAYLOAD_SIZE_BYTES →
      buf.inner ch (buf.record_ids ch) = some (.Received p) →
      receive_messages buf ch msgs = .error (.duplicateMessage (buf.record_ids ch))) ∧
    (∀ ops buf' evs', rbRun initialBuffer [] ops = .ok (buf', evs') →
      ∀ ch r, dcount evs' ch r ≤ 1) := by
  refine ⟨?_, ?_, ?_, ?_, ?_, ?_, ?_⟩
  · intro buf ch r s p hs
    refine ⟨{ buf with inner := updateSlot buf.inner ch r none }, ?_, ?_, ?_, rfl⟩
    · simp [receive_request, hs]
    · simp [updateSlot]
    · intro c q hne
      simp only [updateSlot, if_neg hne]
  · intro buf ch r s hs
    refine ⟨{ buf with inner := updateSlot buf.inner ch r (some (.Requested s)) },
      ?_, ?_, ?_, rfl⟩
    · simp [receive_request, hs]
    · simp [updateSlot]
    · intro c q hne
      simp only [updateSlot, if_neg hne]
  · intro buf ch r s s0 hs
    simp [receive_request, hs]
  · intro buf ch msgs s hlen hslot
    refine ⟨{ inner := updateSlot buf.inner ch (buf.record_ids ch) none,
              record_ids := fun c =>
                if c = ch then buf.record_ids ch + 1 else buf.record_ids c },
      ?_, ?_, ?_⟩
    · rw [receive_messages, chunksOf_single msgs hlen]
      simp [processChunks, tryIntoPayload, hlen, hslot]
    · simp [updateSlot]
    · simp
  · intro buf ch msgs hlen hslot
    refine ⟨{ inner := updateSlot buf.inner ch (buf.record_ids ch)
                (some (.Received msgs)),
              record_ids := fun c =>
                if c = ch then buf.record_ids ch + 1 else buf.record_ids c },
      ?_, ?_, ?_⟩
    · rw [receive_messages, chunksOf_single msgs hlen]
      simp [processChunks, tryIntoPayload, hlen, hslot]
    · simp [updateSlot]
    · simp
  · intro buf ch msgs p hlen hslot
    rw [receive_messages, chunksOf_single msgs hlen]
    simp [processChunks, tryIntoPayload, hlen, hslot]
  · intro ops buf' evs' hok ch r
    exact ((rbRun_inv ops initialBuffer [] RBInv_initial buf' evs' hok) ch r).1

/-- Witness for C1: concrete rendezvous behaviours and a concrete panic-free
run in which record 0 on channel 0 is delivered exactly once. -/
theorem receive_buffer_rendezvous_witness :
    (initialBuffer.inner 0 0 = none) ∧
    (∃ buf', receive_request initialBuffer 0 0 7 = .ok (buf', []) ∧
      buf'.inner 0 0 = some (.Requested 7) ∧
      (∀ c q, ¬(c = 0 ∧ q = 0) → buf'.inner c q = initialBuffer.inner c q) ∧
      buf'.record_ids = initialBuffer.record_ids) ∧
    (∃ buf' evs', rbRun initialBuffer []
        [.request 0 0 5, .arrive 0 [1, 2, 3, 4, 5, 6, 7, 8]] = .ok (buf', evs') ∧
      dcount evs' 0 0 ≤ 1) := by
  refine ⟨rfl, receive_buffer_rendezvous.2.1 initialBuffer 0 0 7 rfl, ?_⟩
  refine ⟨_, _, rfl, ?_⟩
  exact receive_buffer_rendezvous.2.2.2.2.2.2
    [.request 0 0 5, .arrive 0 [1, 2, 3, 4, 5, 6, 7, 8]] _ _ rfl 0 0

theorem chunksOf_full :
    ∀ (k : Nat) (l : List Nat), l.length = MESSAGE_PAYLOAD_SIZE_BYTES * k →
      (∀ c ∈ chunksOf MESSAGE_PAYLOAD_SIZE_BYTES l,
        c.length = MESSAGE_PAYLOAD_SIZE_BYTES) ∧
      (chunksOf MESSAGE_PAYLOAD_SIZE_BYTES l).length = k := by
  intro k
  induction k with
  | zero =>
    intro l hl
    have hnil : l = [] := List.length_eq_zero.mp (by simpa using hl)
    subst hnil
    exact ⟨by intro c hc; simp [chunksOf, chunksOfAux] at hc, rfl⟩
  | succ kk ih =>
    intro l hl
    cases l with
    | nil =>
      simp only [List.length_nil, MESSAGE_PAYLOAD_SIZE_BYTES] at hl
      omega
    | cons x xs =>
      rw [chunksOf_cons]
      have hxs : xs.length = 8 * kk + 7 := by
        simp only [List.length_cons, MESSAGE_PAYLOAD_SIZE_BYTES] at hl
        omega
      have htake : ((x :: xs).take MESSAGE_PAYLOAD_SIZE_BYTES).length =
          MESSAGE_PAYLOAD_SIZE_BYTES := by
        rw [List.length_take]
        simp only [List.length_cons, MESSAGE_PAYLOAD_SIZE_BYTES]
        omega
      have hdrop : (xs.drop (MESSAGE_PAYLOAD_SIZE_BYTES - 1)).length =
          MESSAGE_PAYLOAD_SIZE_BYTES * kk := by
        rw [List.length_drop]
        simp only [MESSAGE_PAYLOAD_SIZE_BYTES]
        omega
      obtain ⟨ihall, ihlen⟩ := ih (xs.drop (MESSAGE_PAYLOAD_SIZE_BYTES - 1)) hdrop
      constructor
      · intro c hc
        rcases List.mem_cons.mp hc with hc | hc
        · subst hc; exact htake
        · exact ihall c hc
      · simp [ihlen]

theorem chunksOf_short :
    ∀ (k m : Nat) (l : List Nat), l.length = MESSAGE_PAYLOAD_SIZE_BYTES * k + m →
      0 < m → m < MESSAGE_PAYLOAD_SIZE_BYTES →
      ∃ pre lst, chunksOf MESSAGE_PAYLOAD_SIZE_BYTES l = pre ++ [lst] ∧
        (∀ c ∈ pre, c.length = MESSAGE_PAYLOAD_SIZE_BYTES) ∧ lst.length = m := by
  intro k
  induction k with
  | zero =>
    intro m l hl hm1 hm2
    cases l with
    | nil => simp at hl; omega
    | cons x xs =>
      have hxs : xs.length + 1 = m := by simpa [MESSAGE_PAYLOAD_SIZE_BYTES] using hl
      refine ⟨[], x :: xs, ?_, by intro c hc; simp at hc, by simp; omega⟩
      rw [chunksOf_cons]
      have h1 : (x :: xs).take MESSAGE_PAYLOAD_SIZE_BYTES = x :: xs := by
        apply List.take_of_length_le
        simp only [List.length_cons, MESSAGE_PAYLOAD_SIZE_BYTES]
        simp only [MESSAGE_PAYLOAD_SIZE_BYTES] at hm2
        omega
      have h2 : xs.drop (MESSAGE_PAYLOAD_SIZE_BYTES - 1) = [] := by
        apply List.drop_eq_nil_of_le
        simp only [MESSAGE_PAYLOAD_SIZE_BYTES] at hm2 ⊢
        omega
      rw [h1, h2]
      rfl
  | succ kk ih =>
    intro m l hl hm1 hm2
    cases l with
    | nil =>
      simp only [List.length_nil, MESSAGE_PAYLOAD_SIZE_BYTES] at hl
      omega
    | cons x xs =>
      have hxs : xs.length = 8 * kk + m + 7 := by
        simp only [List.length_cons, MESSAGE_PAYLOAD_SIZE_BYTES] at hl
        omega
      have htake : ((x :: xs).take MESSAGE_PAYLOAD_SIZE_BYTES).length =
          MESSAGE_PAYLOAD_SIZE_BYTES := by
        rw [List.length_take]
        simp only [List.length_cons, MESSAGE_PAYLOAD_SIZE_BYTES]
        omega
      have hdrop : (xs.drop (MESSAGE_PAYLOAD_SIZE_BYTES - 1)).length =
          MESSAGE_PAYLOAD_SIZE_BYTES * kk + m := by
        rw [List.length_drop]
        simp only [MESSAGE_PAYLOAD_SIZE_BYTES]
        omega
      obtain ⟨pre, lst, heq, hall, hlst⟩ :=
        ih m (xs.drop (MESSAGE_PAYLOAD_SIZE_BYTES - 1)) hdrop hm1 hm2
      refine ⟨(x :: xs).take MESSAGE_PAYLOAD_SIZE_BYTES :: pre, lst, ?_, ?_, hlst⟩
      · rw [chunksOf_cons, heq]
        rfl
      · intro c hc
        rcases List.mem_cons.mp hc with hc | hc
        · subst hc; exact htake
        · exact hall c hc

theorem processChunks_record_ids (ch : Nat) :
    ∀ chunks buf evs buf' evs', processChunks ch buf evs chunks = .ok (buf', evs') →
      buf'.record_ids ch = buf.record_ids ch + chunks.length := by
  intro chunks
  induction chunks with
  | nil =>
    intro buf evs buf' evs' hok
    simp only [processChunks, Except.ok.injEq, Prod.mk.injEq] at hok
    obtain ⟨hb, _⟩ := hok
    subst hb
    simp
  | cons msg rest ih =>
    intro buf evs buf' evs' hok
    cases htry : tryIntoPayload msg with
    | none => simp [processChunks, htry] at hok
    | some payload =>
      cases hslot : buf.inner ch (buf.record_ids ch) with
      | none =>
        simp only [processChunks, htry, hslot] at hok
        have := ih _ _ _ _ hok
        simp only [eq_self_iff_true, if_true] at this
        simp only [List.length_cons]
        omega
      | some item =>
        cases item with
        | Requested s =>
          simp only [processChunks, htry, hslot] at hok
          have := ih _ _ _ _ hok
          simp only [eq_self_iff_true, if_true] at this
          simp only [List.length_cons]
          omega
        | Received p => simp [processChunks, htry, hslot] at hok

theorem processChunks_no_conversion (ch : Nat) :
    ∀ chunks buf evs, (∀ c ∈ chunks, c.length = MESSAGE_PAYLOAD_SIZE_BYTES) →
      processChunks ch buf evs chunks ≠ .error .payloadConversion := by
  intro chunks
  induction chunks with
  | nil => intro buf evs _ hok; simp [processChunks] at hok
  | cons msg rest ih =>
    intro buf evs hall
    have hm : msg.length = MESSAGE_PAYLOAD_SIZE_BYTES := hall msg (by simp)
    have htry : tryIntoPayload msg = some msg := by simp [tryIntoPayload, hm]
    cases hslot : buf.inner ch (buf.record_ids ch) with
    | none =>
      simp only [processChunks, htry, hslot]
      exact ih _ _ (fun c hc => hall c (by simp [hc]))
    | some item =>
      cases item with
      | Requested s =>
        simp only [processChunks, htry, hslot]
        exact ih _ _ (fun c hc => hall c (by simp [hc]))
      | Received p => simp [processChunks, htry, hslot]

theorem processChunks_short_panics (ch : Nat) :
    ∀ pre lst buf evs, (∀ c ∈ pre, c.length = MESSAGE_PAYLOAD_SIZE_BYTES) →
      lst.length ≠ MESSAGE_PAYLOAD_SIZE_BYTES →
      (∀ r p, buf.record_ids ch ≤ r → buf.inner ch r ≠ some (.Received p)) →
      processChunks ch buf evs (pre ++ [lst]) = .error .payloadConversion := by
  intro pre
  induction pre with
  | nil =>
    intro lst buf evs _ hlst _
    have htry : tryIntoPayload lst = none := by simp [tryIntoPayload, hlst]
    simp [processChunks, htry]
  | cons msg rest ih =>
    intro lst buf evs hall hlst hnr
    have hm : msg.length = MESSAGE_PAYLOAD_SIZE_BYTES := hall msg (by simp)
    have htry : tryIntoPayload msg = some msg := by simp [tryIntoPayload, hm]
    cases hslot : buf.inner ch (buf.record_ids ch) with
    | none =>
      simp only [List.cons_append, processChunks, htry, hslot]
      apply ih
      · intro c hc; exact hall c (by simp [hc])
      · exact hlst
      · intro r p hr hcontra
        have hrr : buf.record_ids ch + 1 ≤ r := by simpa using hr
        have hne : ¬(ch = ch ∧ r = buf.record_ids ch) := by
          intro hcc; exact absurd hcc.2 (by omega)
        have hcontra2 : updateSlot buf.inner ch (buf.record_ids ch)
            (some (ReceiveBufItem.Received msg)) ch r =
            some (ReceiveBufItem.Received p) := hcontra
        rw [updateSlot_ne _ _ _ _ _ _ hne] at hcontra2
        exact hnr r p (by omega) hcontra2
    | some item =>
      cases item with
      | Requested s =>
        simp only [List.cons_append, processChunks, htry, hslot]
        apply ih
        · intro c hc; exact hall c (by simp [hc])
        · exact hlst
        · intro r p hr hcontra
          have hrr : buf.record_ids ch + 1 ≤ r := by simpa using hr
          have hne : ¬(ch = ch ∧ r = buf.record_ids ch) := by
            intro hcc; exact absurd hcc.2 (by omega)
          have hcontra2 : updateSlot buf.inner ch (buf.record_ids ch) none ch r =
              some (ReceiveBufItem.Received p) := hcontra
          rw [updateSlot_ne _ _ _ _ _ _ hne] at hcontra2
          exact hnr r p (by omega) hcontra2
      | Received p => exact absurd hslot (hnr _ p (le_refl _))

theorem processChunks_vacant (ch : Nat) :
    ∀ chunks buf evs, (∀ c ∈ chunks, c.length = MESSAGE_PAYLOAD_SIZE_BYTES) →
      (∀ r, buf.record_ids ch ≤ r → buf.inner ch r = none) →
      ∃ buf', processChunks ch buf evs chunks = .ok (buf', evs) ∧
        buf'.record_ids ch = buf.record_ids ch + chunks.length ∧
        (∀ i, i < chunks.length →
          buf'.inner ch (buf.record_ids ch + i) =
            (chunks.get? i).map ReceiveBufItem.Received) ∧
        (∀ r, r < buf.record_ids ch → buf'.inner ch r = buf.inner ch r) := by
  intro chunks
  induction chunks with
  | nil =>
    intro buf evs _ _
    refine ⟨buf, rfl, by simp, ?_, fun r _ => rfl⟩
    intro i hi
    simp at hi
  | cons msg rest ih =>
    intro buf evs hall hvac
    have hm : msg.length = MESSAGE_PAYLOAD_SIZE_BYTES := hall msg (by simp)
    have htry : tryIntoPayload msg = some msg := by simp [tryIntoPayload, hm]
    have hslot : buf.inner ch (buf.record_ids ch) = none := hvac _ (le_refl _)
    have hvac1 : ∀ r,
        (ReceiveBuffer.mk
          (updateSlot buf.inner ch (buf.record_ids ch) (some (.Received msg)))
          (fun c => if c = ch then buf.record_ids ch + 1 else buf.record_ids c)).record_ids ch
          ≤ r →
        (ReceiveBuffer.mk
          (updateSlot buf.inner ch (buf.record_ids ch) (some (.Received msg)))
          (fun c => if c = ch then buf.record_ids ch + 1 else buf.record_ids c)).inner ch r
          = none := by
      intro r hr
      have hrr : buf.record_ids ch + 1 ≤ r := by simpa using hr
      have hne : ¬(ch = ch ∧ r = buf.record_ids ch) := by
        intro hcc; exact absurd hcc.2 (by omega)
      show updateSlot buf.inner ch (buf.record_ids ch) (some (.Received msg)) ch r = none
      rw [updateSlot_ne _ _ _ _ _ _ hne]
      exact hvac r (by omega)
    obtain ⟨buf', hok, hrec, hcontent, hbelow⟩ :=
      ih _ evs (fun c hc => hall c (by simp [hc])) hvac1
    have hb1 : (ReceiveBuffer.mk
        (updateSlot buf.inner ch (buf.record_ids ch) (some (.Received msg)))
        (fun c => if c = ch then buf.record_ids ch + 1 else buf.record_ids c)).record_ids ch
        = buf.record_ids ch + 1 := by simp
    refine ⟨buf', ?_, ?_, ?_, ?_⟩
    · simp only [processChunks, htry, hslot]
      exact hok
    · rw [hrec, hb1]
      simp only [List.length_cons]
      omega
    · intro i hi
      cases i with
      | zero =>
        have h0 : buf'.inner ch (buf.record_ids ch) =
            updateSlot buf.inner ch (buf.record_ids ch) (some (.Received msg))
              ch (buf.record_ids ch) := by
          apply hbelow
          rw [hb1]
          omega
        rw [Nat.add_zero, h0]
        simp [updateSlot]

      | succ j =>
        have hj : j < rest.length := by
          simp only [List.length_cons] at hi
          omega
        have := hcontent j hj
        rw [hb1] at this
        have harith : buf.record_ids ch + 1 + j = buf.record_ids ch + (j + 1) := by omega
        rw [harith] at this
        rw [this]
        simp
    · intro r hr
      have h1 : buf'.inner ch r =
          updateSlot buf.inner ch (buf.record_ids ch) (some (.Received msg)) ch r := by
        apply hbelow
        rw [hb1]
        omega
      have hne : ¬(ch = ch ∧ r = buf.record_ids ch) := by
        intro hcc; exact absurd hcc.2 (by omega)
      rw [h1, updateSlot_ne _ _ _ _ _ _ hne]

/-- C10 (receive_messages chunk accounting): for every channel, a successful
call advances the channel's next-record counter by exactly the number of
payload-size slices of the chunk; on a fresh stretch of the channel the slices
are stored at consecutive record ids starting at the counter's prior value; a
chunk whose length is not a multiple of 8 panics converting the final short
slice, and when the length is a multiple of 8 no conversion panic occurs. -/
theorem receive_messages_chunk_accounting :
    (∀ buf ch msgs buf' evs',
      receive_messages buf ch msgs = .ok (buf', evs') →
      MESSAGE_PAYLOAD_SIZE_BYTES ∣ msgs.length →
      buf'.record_ids ch = buf.record_ids ch +
        msgs.length / MESSAGE_PAYLOAD_SIZE_BYTES) ∧
    (∀ buf ch msgs, MESSAGE_PAYLOAD_SIZE_BYTES ∣ msgs.length →
      (∀ r, buf.record_ids ch ≤ r → buf.inner ch r = none) →
      ∃ buf', receive_messages buf ch msgs = .ok (buf', []) ∧
        buf'.record_ids ch = buf.record_ids ch +
          msgs.length / MESSAGE_PAYLOAD_SIZE_BYTES ∧
        ∀ i, i < msgs.length / MESSAGE_PAYLOAD_SIZE_BYTES →
          buf'.inner ch (buf.record_ids ch + i) =
            ((chunksOf MESSAGE_PAYLOAD_SIZE_BYTES msgs).get? i).map
              ReceiveBufItem.Received) ∧
    (∀ buf ch msgs, ¬ MESSAGE_PAYLOAD_SIZE_BYTES ∣ msgs.length →
      (∀ r p, buf.record_ids ch ≤ r → buf.inner ch r ≠ some (.Received p)) →
      receive_messages buf ch msgs = .error .payloadConversion) ∧
    (∀ buf ch msgs, MESSAGE_PAYLOAD_SIZE_BYTES ∣ msgs.length →
      receive_messages buf ch msgs ≠ .error .payloadConversion) := by
  refine ⟨?_, ?_, ?_, ?_⟩
  · intro buf ch msgs buf' evs' hok hdvd
    obtain ⟨k, hk⟩ := hdvd
    have hok2 : processChunks ch buf []
        (chunksOf MESSAGE_PAYLOAD_SIZE_BYTES msgs) = .ok (buf', evs') := hok
    have hlen := (chunksOf_full k msgs hk).2
    have hadv := processChunks_record_ids ch _ _ _ _ _ hok2
    rw [hlen] at hadv
    rw [hadv, hk]
    congr 1
    rw [Nat.mul_div_cancel_left]
    norm_num [MESSAGE_PAYLOAD_SIZE_BYTES]
  · intro buf ch msgs hdvd hvac
    obtain ⟨k, hk⟩ := hdvd
    obtain ⟨hall, hlen⟩ := chunksOf_full k msgs hk
    obtain ⟨buf', hok, hrec, hcontent, _⟩ := processChunks_vacant ch _ buf [] hall hvac
    have hdivk : msgs.length / MESSAGE_PAYLOAD_SIZE_BYTES = k := by
      rw [hk, Nat.mul_div_cancel_left]
      norm_num [MESSAGE_PAYLOAD_SIZE_BYTES]
    refine ⟨buf', hok, ?_, ?_⟩
    · rw [hrec, hlen, hdivk]
    · intro i hi
      exact hcontent i (by rw [hlen]; omega)
  · intro buf ch msgs hndvd hnr
    have hm1 : 0 < msgs.length % MESSAGE_PAYLOAD_SIZE_BYTES := by
      rcases Nat.eq_zero_or_pos (msgs.length % MESSAGE_PAYLOAD_SIZE_BYTES) with h | h
      · exact absurd (Nat.dvd_iff_mod_eq_zero.mpr h) hndvd
      · exact h
    have hm2 : msgs.length % MESSAGE_PAYLOAD_SIZE_BYTES < MESSAGE_PAYLOAD_SIZE_BYTES :=
      Nat.mod_lt _ (by norm_num [MESSAGE_PAYLOAD_SIZE_BYTES])
    obtain ⟨pre, lst, heq, hall, hlst⟩ :=
      chunksOf_short (msgs.length / MESSAGE_PAYLOAD_SIZE_BYTES)
        (msgs.length % MESSAGE_PAYLOAD_SIZE_BYTES) msgs
        (by rw [Nat.div_add_mod]) hm1 hm2
    show processChunks ch buf [] (chunksOf MESSAGE_PAYLOAD_SIZE_BYTES msgs) =
      .error .payloadConversion
    rw [heq]
    exact processChunks_short_panics ch pre lst buf [] hall (by omega) hnr
  · intro buf ch msgs hdvd
    obtain ⟨k, hk⟩ := hdvd
    exact processChunks_no_conversion ch _ buf [] (chunksOf_full k msgs hk).1

/-- Witness for C10: a concrete 16-byte chunk advances channel 0's counter by
two and stores two consecutive records, and a concrete 3-byte chunk panics on
payload conversion. -/
theorem receive_messages_chunk_accounting_witness :
    (MESSAGE_PAYLOAD_SIZE_BYTES ∣
      ([1, 2, 3, 4, 5, 6, 7, 8, 9, 10, 11, 12, 13, 14, 15, 16] : List Nat).length) ∧
    (∃ buf', receive_messages initialBuffer 0
        [1, 2, 3, 4, 5, 6, 7, 8, 9, 10, 11, 12, 13, 14, 15, 16] = .ok (buf', []) ∧
      buf'.record_ids 0 = initialBuffer.record_ids 0 +
        ([1, 2, 3, 4, 5, 6, 7, 8, 9, 10, 11, 12, 13, 14, 15, 16] : List Nat).length /
          MESSAGE_PAYLOAD_SIZE_BYTES ∧
      ∀ i, i < ([1, 2, 3, 4, 5, 6, 7, 8, 9, 10, 11, 12, 13, 14, 15, 16] :
          List Nat).length / MESSAGE_PAYLOAD_SIZE_BYTES →
        buf'.inner 0 (initialBuffer.record_ids 0 + i) =
          ((chunksOf MESSAGE_PAYLOAD_SIZE_BYTES
            [1, 2, 3, 4, 5, 6, 7, 8, 9, 10, 11, 12, 13, 14, 15, 16]).get? i).map
            ReceiveBufItem.Received) ∧
    (receive_messages initialBuffer 0 [1, 2, 3] = .error .payloadConversion) := by
  refine ⟨by decide, ?_, ?_⟩
  · exact receive_messages_chunk_accounting.2.1 initialBuffer 0
      [1, 2, 3, 4, 5, 6, 7, 8, 9, 10, 11, 12, 13, 14, 15, 16]
      (by decide) (fun r _ => rfl)
  · exact receive_messages_chunk_accounting.2.2.1 initialBuffer 0 [1, 2, 3]
      (by decide) (fun r p _ h => Option.noConfusion h)

/-! ### Query processor (src/query/processor.rs) -/

/-- `QueryId` is currently a unit struct: a single in-flight query per helper. -/
inductive QueryId where
  | q
deriving DecidableEq

theorem queryId_subsingleton (a b : QueryId) : a = b := by
  cases a; cases b; rfl

/-- Query configuration, treated as an abstract token: the processor only
passes it through. -/
abbrev QueryConfig := Nat

/-- Roles `H1` (coordinator), `H2`, `H3`. -/
inductive Role where
  | H1
  | H2
  | H3
deriving DecidableEq

/-- Helper identities: exactly three parties. -/
abbrev HelperIdentity := Fin 3

/-- Modelled from the spec: `HelperIdentity::others` (not under src/) returns
the other two helpers in ring order, right neighbour first, then left. -/
def others (id : HelperIdentity) : HelperIdentity × HelperIdentity :=
  (id + 1, id + 2)

/-- Modelled from the spec: a `RoleAssignment` is a bijection between helper
identities and roles (not under src/); modelled as the association list the
processor builds. -/
abbrev RoleAssignment := List (HelperIdentity × Role)

/-- Look up the role assigned to a helper (`RoleAssignment::role`). -/
def roleOf (roles : RoleAssignment) (id : HelperIdentity) : Role :=
  ((roles.find? (fun pr => pr.1 == id)).map Prod.snd).getD Role.H1

/-- Protocol result (or protocol error) of a finished query; abstract token. -/
abbrev QueryResult := Nat

/-- Modelled from the spec: `GatewayConfig::from(&config)` derives the gateway
configuration (`active_work`) from the query configuration (not under src/). -/
def gatewayConfigFrom (config : QueryConfig) : Nat := config

/-- The gateway as constructed by `receive_inputs`:
`Gateway::new(query_id, GatewayConfig::from(&config), role_assignment, transport)`;
the transport handle carries no data relevant to the claims. -/
structure Gateway where
  query_id : QueryId
  gw_config : Nat
  roles : RoleAssignment
deriving DecidableEq

/-- The running executor task (`RunningQuery`): records the arguments
`executor::execute` was invoked with, plus the outcome the next non-blocking
poll will report (`none` while pending). -/
structure RunningQuery where
  config : QueryConfig
  key_registry : Nat
  gateway : Gateway
  input_stream : Nat
  poll : Option QueryResult
deriving DecidableEq

/-- Modelled from the spec: `executor::execute` is a black box consuming
`(config, key_registry, gateway, input_stream)` and producing a pollable
handle, pending on creation. -/
def execute (config : QueryConfig) (key_registry : Nat) (gateway : Gateway)
    (input_stream : Nat) : RunningQuery :=
  ⟨config, key_registry, gateway, input_stream, none⟩

/-- `RunningQuery::try_complete`: one non-blocking poll of the handle. -/
def tryComplete (rq : RunningQuery) : Option QueryResult := rq.poll

/-- The query state, one active variant per query id. -/
inductive QueryState where
  | Preparing (config : QueryConfig)
  | AwaitingInputs (query_id : QueryId) (config : QueryConfig) (roles : RoleAssignment)
  | Running (handle : RunningQuery)
  | AwaitingCompletion
  | Completed (result : QueryResult)
deriving DecidableEq

/-- Read-only projection of the state variant (`QueryStatus`). -/
inductive QueryStatus where
  | Preparing
  | AwaitingInputs
  | Running
  | AwaitingCompletion
  | Completed
deriving DecidableEq

def statusOf : QueryState → QueryStatus
  | .Preparing _ => .Preparing
  | .AwaitingInputs _ _ _ => .AwaitingInputs
  | .Running _ => .Running
  | .AwaitingCompletion => .AwaitingCompletion
  | .Completed _ => .Completed

/-- Position of a status in the forward-only lifecycle. -/
def statusRank : QueryStatus → Nat
  | .Preparing => 0
  | .AwaitingInputs => 1
  | .Running => 2
  | .AwaitingCompletion => 3
  | .Completed => 4

inductive StateError where
  | AlreadyRunning
  | InvalidState (src : Option QueryStatus) (dst : QueryStatus)
deriving DecidableEq

/-- Modelled from the spec: the transition legality table of the query state
registry (state.rs is not under src/). -/
def transitionAllowed : Option QueryStatus → QueryStatus → Bool
  | none, .Preparing => true
  | none, .AwaitingInputs => true
  | some .Preparing, .AwaitingInputs => true
  | some .AwaitingInputs, .Running => true
  | some .Running, .AwaitingCompletion => true
  | some .Running, .Completed => true
  | some .AwaitingCompletion, .Completed => true
  | _, _ => false

/-- Modelled from the spec: `handle.set_state` validates the transition;
`AlreadyRunning` is signalled whenever an insert finds an existing entry whose
status is not `Completed`, and any other illegal transition is
`InvalidState`. -/
def setState (cur : Option QueryState) (next : QueryState) : Except StateError Unit :=
  if transitionAllowed (cur.map statusOf) (statusOf next) then .ok ()
  else
    match cur with
    | some st =>
      if statusOf st = .Completed then
        .error (.InvalidState (some .Completed) (statusOf next))
      else .error .AlreadyRunning
    | none => .error (.InvalidState none (statusOf next))

/-- The registry of running queries (`RunningQueries`): at most one state per
query id. -/
abbrev Registry := QueryId → Option QueryState

def updateReg (reg : Registry) (qid : QueryId) (v : Option QueryState) : Registry :=
  fun q0 => if q0 = qid then v else reg q0

/-- The transport capabilities `new_query` uses: the helper's own identity and
whether the `PrepareQuery` send to each peer succeeds. -/
structure TransportModel where
  identity : HelperIdentity
  sendOk : HelperIdentity → Bool

inductive NewQueryError where
  | State (e : StateError)
  | Transport
deriving DecidableEq

/-- The `PrepareQuery` message broadcast to the followers. -/
structure PrepareQuery where
  query_id : QueryId
  config : QueryConfig
  roles : RoleAssignment
deriving DecidableEq

/-- `Processor::new_query` (coordinator path): insert `Preparing`, compute the
role assignment (self→H1, right neighbour→H2, left neighbour→H3), broadcast
`PrepareQuery` to both peers, and on success transition to `AwaitingInputs`;
the `RemoveQuery` drop guard deletes the entry on any failure after the
insert. -/
def new_query (t : TransportModel) (req : QueryConfig) (reg : Registry) :
    Registry × Except NewQueryError PrepareQuery :=
  match setState (reg QueryId.q) (.Preparing req) with
  | .error e => (reg, .error (.State e))
  | .ok _ =>
    let reg1 := updateReg reg QueryId.q (some (.Preparing req))
    let roles : RoleAssignment :=
      [(t.identity, Role.H1), ((others t.identity).1, Role.H2),
        ((others t.identity).2, Role.H3)]
    let prepare_request : PrepareQuery := ⟨QueryId.q, req, roles⟩
    if t.sendOk (others t.identity).2 && t.sendOk (others t.identity).1 then
      match setState (reg1 QueryId.q) (.AwaitingInputs QueryId.q req roles) with
      | .error e => (updateReg reg1 QueryId.q none, .error (.State e))
      | .ok _ =>
        (updateReg reg1 QueryId.q (some (.AwaitingInputs QueryId.q req roles)),
          .ok prepare_request)
    else (updateReg reg1 QueryId.q none, .error .Transport)

inductive PrepareQueryError where
  | WrongTarget
  | AlreadyRunning
  | StateErr (e : StateError)
deriving DecidableEq

/-- `Processor::prepare` (follower path): reject `WrongTarget` when the role
assigned to this helper is `H1`; reject `AlreadyRunning` when an entry
exists; otherwise set `AwaitingInputs`.  The definition consumes no send
capability: it performs no peer I/O. -/
def prepare (t : TransportModel) (req : PrepareQuery) (reg : Registry) :
    Registry × Except PrepareQueryError Unit :=
  if roleOf req.roles t.identity = Role.H1 then (reg, .error .WrongTarget)
  else if (reg req.query_id).isSome then (reg, .error .AlreadyRunning)
  else
    match setState (reg req.query_id)
        (.AwaitingInputs req.query_id req.config req.roles) with
    | .error e => (reg, .error (.StateErr e))
    | .ok _ =>
      (updateReg reg req.query_id
        (some (.AwaitingInputs req.query_id req.config req.roles)), .ok ())

/-- The `QueryInput` command: query id plus the (abstract) input stream. -/
structure QueryInput where
  query_id : QueryId
  input_stream : Nat
deriving DecidableEq

inductive QueryInputError where
  | NoSuchQuery (qid : QueryId)
  | StateErr (e : StateError)
deriving DecidableEq

/-- `Processor::receive_inputs`: remove the entry; if it is `AwaitingInputs`,
build a gateway, invoke the executor and insert `Running`; any other state is
restored and `InvalidState` returned; a missing entry is `NoSuchQuery`.  The
source asserts `input.query_id == query_id`, which holds identically because
`QueryId` has a single value (`queryId_subsingleton`). -/
def receive_inputs (key_registry : Nat) (input : QueryInput) (reg : Registry) :
    Registry × Except QueryInputError Unit :=
  match reg input.query_id with
  | some (QueryState.AwaitingInputs query_id config role_assignment) =>
    (updateReg reg input.query_id
      (some (.Running (execute config key_registry
        ⟨query_id, gatewayConfigFrom config, role_assignment⟩ input.input_stream))),
      .ok ())
  | some state =>
    (reg, .error (.StateErr (.InvalidState (some (statusOf state)) .Running)))
  | none => (reg, .error (.NoSuchQuery input.query_id))

inductive QueryStatusError where
  | NoSuchQuery (qid : QueryId)
deriving DecidableEq

/-- `Processor::query_status`: take the state out; a `Running` state whose
single non-blocking poll is ready is upgraded to `Completed`; the (possibly
updated) state is put back and its status projection returned. -/
def query_status (qid : QueryId) (reg : Registry) :
    Registry × Except QueryStatusError QueryStatus :=
  match reg qid with
  | none => (reg, .error (.NoSuchQuery qid))
  | some state =>
    let state' :=
      match state with
      | QueryState.Running rq =>
        match tryComplete rq with
        | some result => QueryState.Completed result
        | none => QueryState.Running rq
      | st => st
    (updateReg reg qid (some state'), .ok (statusOf state'))

theorem new_query_send_fail (t : TransportModel) (req : QueryConfig) (reg : Registry)
    (hempty : reg QueryId.q = none)
    (hfail : t.sendOk (others t.identity).2 = false ∨
      t.sendOk (others t.identity).1 = false) :
    (new_query t req reg).2 = .error .Transport ∧
    (new_query t req reg).1 QueryId.q = none := by
  have hset : setState (reg QueryId.q) (.Preparing req) = .ok () := by
    rw [hempty]; rfl
  have hcond : (t.sendOk (others t.identity).2 && t.sendOk (others t.identity).1)
      = false := by
    rcases hfail with h | h <;> simp [h]
  constructor
  · simp only [new_query, hset, hcond, Bool.false_eq_true, if_false]
  · simp only [new_query, hset, hcond, Bool.false_eq_true, if_false]
    simp [updateReg]

/-- C3 (new_query rollback atomicity): if the `PrepareQuery` send to either
peer fails, `new_query` returns a `Transport` error, afterwards the registry
has no entry for the query id, and a retry returns `Transport` again — in
particular it does not fail with `AlreadyRunning` (or any state error). -/
theorem new_query_rollback_atomicity (t : TransportModel) (req : QueryConfig)
    (reg : Registry) (hempty : reg QueryId.q = none)
    (hfail : t.sendOk (others t.identity).2 = false ∨
      t.sendOk (others t.identity).1 = false) :
    (new_query t req reg).2 = .error .Transport ∧
    (new_query t req reg).1 QueryId.q = none ∧
    (new_query t req ((new_query t req reg).1)).2 = .error .Transport ∧
    ∀ e, (new_query t req ((new_query t req reg).1)).2 ≠ .error (.State e) := by
  obtain ⟨h1, h2⟩ := new_query_send_fail t req reg hempty hfail
  obtain ⟨h3, _⟩ := new_query_send_fail t req _ h2 hfail
  refine ⟨h1, h2, h3, ?_⟩
  intro e hcontra
  rw [h3] at hcontra
  cases hcontra

/-- Witness for C3: a transport whose sends always fail, starting from the
empty registry. -/
theorem new_query_rollback_atomicity_witness :
    (new_query ⟨0, fun _ => false⟩ 5 (fun _ => none)).2 = .error .Transport ∧
    (new_query ⟨0, fun _ => false⟩ 5 (fun _ => none)).1 QueryId.q = none := by
  have h := new_query_rollback_atomicity ⟨0, fun _ => false⟩ 5 (fun _ => none)
    rfl (Or.inl rfl)
  exact ⟨h.1, h.2.1⟩

theorem roleOf_assignment (id : Fin 3) :
    roleOf [(id, Role.H1), (id + 1, Role.H2), (id + 2, Role.H3)] id = Role.H1 ∧
    roleOf [(id, Role.H1), (id + 1, Role.H2), (id + 2, Role.H3)] (id + 1) = Role.H2 ∧
    roleOf [(id, Role.H1), (id + 1, Role.H2), (id + 2, Role.H3)] (id + 2) = Role.H3 := by
  fin_cases id <;> exact ⟨rfl, rfl, rfl⟩

/-- C4 (new_query success postcondition): when both peers acknowledge,
`new_query` stores `AwaitingInputs` and returns a `PrepareQuery` whose role
assignment maps this helper to `H1`, its right neighbour to `H2` and its left
neighbour to `H3`, with the registered query id and configuration. -/
theorem new_query_success (t : TransportModel) (req : QueryConfig) (reg : Registry)
    (hempty : reg QueryId.q = none)
    (hleft : t.sendOk (others t.identity).2 = true)
    (hright : t.sendOk (others t.identity).1 = true) :
    ∃ pq : PrepareQuery,
      (new_query t req reg).2 = .ok pq ∧
      pq.query_id = QueryId.q ∧
      pq.config = req ∧
      roleOf pq.roles t.identity = Role.H1 ∧
      roleOf pq.roles (others t.identity).1 = Role.H2 ∧
      roleOf pq.roles (others t.identity).2 = Role.H3 ∧
      (new_query t req reg).1 QueryId.q =
        some (.AwaitingInputs QueryId.q req pq.roles) := by
  have hset : setState (reg QueryId.q) (.Preparing req) = .ok () := by
    rw [hempty]; rfl
  have hcond : (t.sendOk (others t.identity).2 && t.sendOk (others t.identity).1)
      = true := by simp [hleft, hright]
  have hreg1 : updateReg reg QueryId.q (some (.Preparing req)) QueryId.q =
      some (.Preparing req) := by simp [updateReg]
  refine ⟨⟨QueryId.q, req,
    [(t.identity, Role.H1), ((others t.identity).1, Role.H2),
      ((others t.identity).2, Role.H3)]⟩, ?_, rfl, rfl, ?_, ?_, ?_, ?_⟩
  · simp only [new_query, hset, hcond, if_true, hreg1]
    rfl
  · exact (roleOf_assignment t.identity).1
  · exact (roleOf_assignment t.identity).2.1
  · exact (roleOf_assignment t.identity).2.2
  · simp only [new_query, hset, hcond, if_true, hreg1]
    simp [updateReg, setState, transitionAllowed, statusOf]

/-- Witness for C4: a transport whose sends always succeed, starting from the
empty registry. -/
theorem new_query_success_witness :
    ∃ pq : PrepareQuery,
      (new_query ⟨0, fun _ => true⟩ 3 (fun _ => none)).2 = .ok pq ∧
      pq.query_id = QueryId.q ∧
      pq.config = 3 ∧
      roleOf pq.roles (⟨0, fun _ => true⟩ : TransportModel).identity = Role.H1 ∧
      roleOf pq.roles (others (⟨0, fun _ => true⟩ : TransportModel).identity).1
        = Role.H2 ∧
      roleOf pq.roles (others (⟨0, fun _ => true⟩ : TransportModel).identity).2
        = Role.H3 ∧
      (new_query ⟨0, fun _ => true⟩ 3 (fun _ => none)).1 QueryId.q =
        some (.AwaitingInputs QueryId.q 3 pq.roles) :=
  new_query_success ⟨0, fun _ => true⟩ 3 (fun _ => none) rfl rfl rfl

/-- C6 (prepare follower path): `prepare` rejects with `WrongTarget` when the
role assigned to this helper is `H1`; otherwise rejects with `AlreadyRunning`
when an entry exists for the query id; otherwise stores `AwaitingInputs` and
succeeds.  Its result depends only on the helper's identity, never on the
send capability: it performs no peer I/O. -/
theorem prepare_follower_path (t : TransportModel) (req : PrepareQuery)
    (reg : Registry) :
    (roleOf req.roles t.identity = Role.H1 →
      prepare t req reg = (reg, .error .WrongTarget)) ∧
    (roleOf req.roles t.identity ≠ Role.H1 → (reg req.query_id).isSome →
      prepare t req reg = (reg, .error .AlreadyRunning)) ∧
    (roleOf req.roles t.identity ≠ Role.H1 → reg req.query_id = none →
      (prepare t req reg).2 = .ok () ∧
      (prepare t req reg).1 req.query_id =
        some (.AwaitingInputs req.query_id req.config req.roles)) ∧
    (∀ t' : TransportModel, t'.identity = t.identity →
      prepare t' req reg = prepare t req reg) := by
  refine ⟨?_, ?_, ?_, ?_⟩
  · intro h
    simp [prepare, h]
  · intro h1 h2
    simp [prepare, h1, h2]
  · intro h1 h2
    have hset : setState none
        (QueryState.AwaitingInputs req.query_id req.config req.roles) = .ok () := rfl
    constructor
    · simp [prepare, h1, h2, hset]
    · simp [prepare, h1, h2, hset, updateReg]
  · intro t' h
    simp [prepare, h]

/-- Witness for C6: with the assignment `0↦H1, 1↦H2, 2↦H3`, helper 0 is
rejected as the coordinator, and helper 1 with an empty registry stores
`AwaitingInputs`. -/
theorem prepare_follower_path_witness :
    (prepare ⟨0, fun _ => true⟩
        ⟨QueryId.q, 4, [(0, Role.H1), (1, Role.H2), (2, Role.H3)]⟩ (fun _ => none) =
      ((fun _ => none : Registry), .error .WrongTarget)) ∧
    ((prepare ⟨1, fun _ => true⟩
        ⟨QueryId.q, 4, [(0, Role.H1), (1, Role.H2), (2, Role.H3)]⟩
        (fun _ => none)).2 = .ok () ∧
      (prepare ⟨1, fun _ => true⟩
        ⟨QueryId.q, 4, [(0, Role.H1), (1, Role.H2), (2, Role.H3)]⟩
        (fun _ => none)).1 QueryId.q =
        some (.AwaitingInputs QueryId.q 4
          [(0, Role.H1), (1, Role.H2), (2, Role.H3)])) := by
  constructor
  · exact (prepare_follower_path ⟨0, fun _ => true⟩
      ⟨QueryId.q, 4, [(0, Role.H1), (1, Role.H2), (2, Role.H3)]⟩ (fun _ => none)).1 rfl
  · exact (prepare_follower_path ⟨1, fun _ => true⟩
      ⟨QueryId.q, 4, [(0, Role.H1), (1, Role.H2), (2, Role.H3)]⟩
      (fun _ => none)).2.2.1 (by decide) rfl

/-- C7 (receive_inputs transition and atomicity): an `AwaitingInputs` entry is
replaced by `Running` holding the executor invoked with the configuration, the
key registry, the freshly built gateway and the input stream; any other state
is put back unchanged with `InvalidState`; a missing entry yields
`NoSuchQuery` with the registry unchanged. -/
theorem receive_inputs_transition (key_registry : Nat) (input : QueryInput)
    (reg : Registry) :
    (∀ qid config roles, reg input.query_id = some (.AwaitingInputs qid config roles) →
      (receive_inputs key_registry input reg).2 = .ok () ∧
      (receive_inputs key_registry input reg).1 input.query_id =
        some (.Running (execute config key_registry
          ⟨qid, gatewayConfigFrom config, roles⟩ input.input_stream))) ∧
    (∀ st, reg input.query_id = some st →
      (∀ qid config roles, st ≠ .AwaitingInputs qid config roles) →
      receive_inputs key_registry input reg =
        (reg, .error (.StateErr (.InvalidState (some (statusOf st)) .Running)))) ∧
    (reg input.query_id = none →
      receive_inputs key_registry input reg =
        (reg, .error (.NoSuchQuery input.query_id))) := by
  refine ⟨?_, ?_, ?_⟩
  · intro qid config roles h
    constructor
    · simp [receive_inputs, h]
    · simp [receive_inputs, h, updateReg]
  · intro st h hne
    cases st with
    | AwaitingInputs qid config roles => exact absurd rfl (hne qid config roles)
    | Preparing c => simp [receive_inputs, h, statusOf]
    | Running rq => simp [receive_inputs, h, statusOf]
    | AwaitingCompletion => simp [receive_inputs, h, statusOf]
    | Completed res => simp [receive_inputs, h, statusOf]
  · intro h
    simp [receive_inputs, h]

/-- Witness for C7: an `AwaitingInputs` entry transitions to `Running` with
the executor arguments recorded, and a `Completed` entry is restored with
`InvalidState`. -/
theorem receive_inputs_transition_witness :
    ((receive_inputs 1 ⟨QueryId.q, 9⟩
        (fun _ => some (.AwaitingInputs QueryId.q 2 [(0, Role.H1)]))).2 = .ok () ∧
      (receive_inputs 1 ⟨QueryId.q, 9⟩
        (fun _ => some (.AwaitingInputs QueryId.q 2 [(0, Role.H1)]))).1 QueryId.q =
        some (.Running (execute 2 1 ⟨QueryId.q, gatewayConfigFrom 2, [(0, Role.H1)]⟩ 9))) ∧
    (receive_inputs 1 ⟨QueryId.q, 9⟩ (fun _ => some (.Completed 6)) =
      ((fun _ => some (.Completed 6) : Registry),
        .error (.StateErr (.InvalidState (some .Completed) .Running)))) := by
  constructor
  · exact (receive_inputs_transition 1 ⟨QueryId.q, 9⟩
      (fun _ => some (.AwaitingInputs QueryId.q 2 [(0, Role.H1)]))).1
      QueryId.q 2 [(0, Role.H1)] rfl
  · exact (receive_inputs_transition 1 ⟨QueryId.q, 9⟩
      (fun _ => some (.Completed 6))).2.1 (.Completed 6) rfl
      (fun qid config roles h => QueryState.noConfusion h)

theorem query_status_step (qid : QueryId) (reg : Registry) (st : QueryState)
    (h : reg qid = some st) :
    ∃ st', query_status qid reg = (updateReg reg qid (some st'), .ok (statusOf st')) ∧
      ((st' = st ∧ ∀ rq res, st = QueryState.Running rq → tryComplete rq ≠ some res) ∨
        (∃ rq res, st = QueryState.Running rq ∧ tryComplete rq = some res ∧
          st' = QueryState.Completed res)) ∧
      statusRank (statusOf st) ≤ statusRank (statusOf st') := by
  cases st with
  | Running rq =>
    cases hpoll : tryComplete rq with
    | none =>
      refine ⟨QueryState.Running rq, by simp [query_status, h, hpoll], ?_, le_refl _⟩
      left
      refine ⟨rfl, ?_⟩
      intro rq' res heq
      cases heq
      simp [hpoll]
    | some res =>
      refine ⟨QueryState.Completed res, by simp [query_status, h, hpoll], ?_, ?_⟩
      · right
        exact ⟨rq, res, rfl, hpoll, rfl⟩
      · simp [statusOf, statusRank]
  | Preparing c =>
    exact ⟨QueryState.Preparing c, by simp [query_status, h],
      Or.inl ⟨rfl, fun rq res heq => QueryState.noConfusion heq⟩, le_refl _⟩
  | AwaitingInputs qid2 config roles =>
    exact ⟨QueryState.AwaitingInputs qid2 config roles, by simp [query_status, h],
      Or.inl ⟨rfl, fun rq res heq => QueryState.noConfusion heq⟩, le_refl _⟩
  | AwaitingCompletion =>
    exact ⟨QueryState.AwaitingCompletion, by simp [query_status, h],
      Or.inl ⟨rfl, fun rq res heq => QueryState.noConfusion heq⟩, le_refl _⟩
  | Completed res =>
    exact ⟨QueryState.Completed res, by simp [query_status, h],
      Or.inl ⟨rfl, fun rq res heq => QueryState.noConfusion heq⟩, le_refl _⟩

/-- C8 (query_status monotonicity): `query_status` returns `NoSuchQuery` on a
missing entry; otherwise it puts the state back exactly as it was except that
a `Running` state whose single non-blocking poll is ready becomes `Completed`,
returns the status projection of the stored state, and never decreases the
status rank; hence two successive calls observe non-decreasing statuses. -/
theorem query_status_monotone (qid : QueryId) (reg : Registry) :
    (reg qid = none → query_status qid reg = (reg, .error (.NoSuchQuery qid))) ∧
    (∀ st, reg qid = some st →
      ∃ st', query_status qid reg = (updateReg reg qid (some st'), .ok (statusOf st')) ∧
        ((st' = st ∧ ∀ rq res, st = QueryState.Running rq → tryComplete rq ≠ some res) ∨
          (∃ rq res, st = QueryState.Running rq ∧ tryComplete rq = some res ∧
            st' = QueryState.Completed res)) ∧
        statusRank (statusOf st) ≤ statusRank (statusOf st')) ∧
    (∀ reg1 reg2 s1 s2,
      query_status qid reg = (reg1, .ok s1) →
      query_status qid reg1 = (reg2, .ok s2) →
      statusRank s1 ≤ statusRank s2) := by
  refine ⟨?_, ?_, ?_⟩
  · intro h
    simp [query_status, h]
  · intro st h
    exact query_status_step qid reg st h
  · intro reg1 reg2 s1 s2 h1 h2
    cases hreg : reg qid with
    | none => simp [query_status, hreg] at h1
    | some st =>
      obtain ⟨st', heq, _, hrank⟩ := query_status_step qid reg st hreg
      rw [heq] at h1
      rw [Prod.mk.injEq] at h1
      obtain ⟨hr1, hs1⟩ := h1
      have hs1' : statusOf st' = s1 := by
        cases hs1
        rfl
      have hentry : reg1 qid = some st' := by
        rw [← hr1]
        simp [updateReg]
      obtain ⟨st2, heq2, _, hrank2⟩ := query_status_step qid reg1 st' hentry
      rw [heq2] at h2
      rw [Prod.mk.injEq] at h2
      obtain ⟨_, hs2⟩ := h2
      have hs2' : statusOf st2 = s2 := by
        cases hs2
        rfl
      rw [← hs1', ← hs2']
      exact hrank2

/-- Witness for C8: a missing query reports `NoSuchQuery`, and two successive
polls of a ready `Running` query observe `Completed` twice. -/
theorem query_status_monotone_witness :
    (query_status QueryId.q (fun _ => none) =
      ((fun _ => none : Registry), .error (.NoSuchQuery QueryId.q))) ∧
    statusRank QueryStatus.Completed ≤ statusRank QueryStatus.Completed := by
  constructor
  · exact (query_status_monotone QueryId.q (fun _ => none)).1 rfl
  · exact (query_status_monotone QueryId.q
      (fun _ => some (.Running ⟨1, 2, ⟨QueryId.q, 3, []⟩, 4, some 7⟩))).2.2
      _ _ _ _ rfl rfl

/-! ### Malicious secret shares
(src/secret_sharing/replicated/malicious/additive_share.rs) -/

/-- Modelled from the spec: a semi-honest replicated `AdditiveShare` is a pair
`(left, right)` of field elements with component-wise operations (the
semi-honest implementation is not under src/). -/
structure SHShare (α : Type) where
  left : α
  right : α
deriving DecidableEq

def SHShare.add [Add α] (a b : SHShare α) : SHShare α :=
  ⟨a.left + b.left, a.right + b.right⟩

def SHShare.sub [Sub α] (a b : SHShare α) : SHShare α :=
  ⟨a.left - b.left, a.right - b.right⟩

def SHShare.neg [Neg α] (a : SHShare α) : SHShare α :=
  ⟨-a.left, -a.right⟩

def SHShare.mulConst [Mul α] (a : SHShare α) (c : α) : SHShare α :=
  ⟨a.left * c, a.right * c⟩

/-- The malicious `AdditiveShare`: the data share `x` over the base field and
the MAC share `rx` over the extension field. -/
structure MalShare (F G : Type) where
  x : SHShare F
  rx : SHShare G
deriving DecidableEq

/-- `Add for AdditiveShare`: component-wise on `(x, rx)`. -/
def MalShare.add [Add F] [Add G] (a b : MalShare F G) : MalShare F G :=
  ⟨a.x.add b.x, a.rx.add b.rx⟩

/-- `Sub for AdditiveShare`: component-wise on `(x, rx)`. -/
def MalShare.sub [Sub F] [Sub G] (a b : MalShare F G) : MalShare F G :=
  ⟨a.x.sub b.x, a.rx.sub b.rx⟩

/-- `Neg for AdditiveShare`: component-wise on `(x, rx)`. -/
def MalShare.neg [Neg F] [Neg G] (a : MalShare F G) : MalShare F G :=
  ⟨a.x.neg, a.rx.neg⟩

/-- `Mul<V> for AdditiveShare`: multiply `x` by the scalar and `rx` by
`scalar.to_extended()`; `toExt` is the `ExtendableField` embedding. -/
def MalShare.mulConst [Mul F] [Mul G] (toExt : F → G) (a : MalShare F G) (c : F) :
    MalShare F G :=
  ⟨a.x.mulConst c, a.rx.mulConst (toExt c)⟩

/-- Arithmetic expressions built from the linear malicious-share operations. -/
inductive Expr (F : Type) where
  | var (i : Nat)
  | add (a b : Expr F)
  | sub (a b : Expr F)
  | neg (a : Expr F)
  | mulConst (a : Expr F) (c : F)

/-- Plain field evaluation of an expression. -/
def evalField [Add F] [Sub F] [Neg F] [Mul F] (env : Nat → F) : Expr F → F
  | .var i => env i
  | .add a b => evalField env a + evalField env b
  | .sub a b => evalField env a - evalField env b
  | .neg a => -(evalField env a)
  | .mulConst a c => evalField env a * c

/-- Evaluation of an expression with the malicious-share implementation. -/
def evalMal [Add F] [Sub F] [Neg F] [Mul F] [Add G] [Sub G] [Neg G] [Mul G]
    (toExt : F → G) (env : Nat → MalShare F G) : Expr F → MalShare F G
  | .var i => env i
  | .add a b => (evalMal toExt env a).add (evalMal toExt env b)
  | .sub a b => (evalMal toExt env a).sub (evalMal toExt env b)
  | .neg a => (evalMal toExt env a).neg
  | .mulConst a c => (evalMal toExt env a).mulConst toExt c

/-- Reconstruction of a replicated sharing from the three helpers' shares:
the sum of the three left components. -/
def reconstruct3 [Add α] (s1 s2 s3 : SHShare α) : α :=
  s1.left + s2.left + s3.left

/-- C5 (malicious-share algebra is component-wise): `+`, `-`, negation act
independently on the `x` and `rx` components and scalar multiplication by `c`
multiplies `x` by `c` and `rx` by `c.to_extended()`; consequently for every
expression built from these operations, the `x` components reconstruct to the
plain value of the expression and the `rx` components to `r` times its
embedding, whenever the inputs do. -/
theorem malicious_share_algebra (F G : Type) [CommRing F] [CommRing G]
    (toExt : F → G)
    (hadd : ∀ a b, toExt (a + b) = toExt a + toExt b)
    (hsub : ∀ a b, toExt (a - b) = toExt a - toExt b)
    (hneg : ∀ a, toExt (-a) = -(toExt a))
    (hmul : ∀ a b, toExt (a * b) = toExt a * toExt b)
    (r : G) (env : Nat → F) (m1 m2 m3 : Nat → MalShare F G)
    (hx : ∀ i, reconstruct3 (m1 i).x (m2 i).x (m3 i).x = env i)
    (hrx : ∀ i, reconstruct3 (m1 i).rx (m2 i).rx (m3 i).rx = r * toExt (env i)) :
    (∀ a b : MalShare F G, (a.add b).x = a.x.add b.x ∧ (a.add b).rx = a.rx.add b.rx) ∧
    (∀ a b : MalShare F G, (a.sub b).x = a.x.sub b.x ∧ (a.sub b).rx = a.rx.sub b.rx) ∧
    (∀ a : MalShare F G, a.neg.x = a.x.neg ∧ a.neg.rx = a.rx.neg) ∧
    (∀ (a : MalShare F G) (c : F), (a.mulConst toExt c).x = a.x.mulConst c ∧
      (a.mulConst toExt c).rx = a.rx.mulConst (toExt c)) ∧
    (∀ E : Expr F,
      reconstruct3 (evalMal toExt m1 E).x (evalMal toExt m2 E).x
        (evalMal toExt m3 E).x = evalField env E ∧
      reconstruct3 (evalMal toExt m1 E).rx (evalMal toExt m2 E).rx
        (evalMal toExt m3 E).rx = r * toExt (evalField env E)) := by
  refine ⟨fun a b => ⟨rfl, rfl⟩, fun a b => ⟨rfl, rfl⟩, fun a => ⟨rfl, rfl⟩,
    fun a c => ⟨rfl, rfl⟩, ?_⟩
  intro E
  induction E with
  | var i => exact ⟨hx i, hrx i⟩
  | add a b iha ihb =>
    obtain ⟨iha1, iha2⟩ := iha
    obtain ⟨ihb1, ihb2⟩ := ihb
    simp only [evalMal, evalField, MalShare.add, SHShare.add, reconstruct3]
      at iha1 iha2 ihb1 ihb2 ⊢
    constructor
    · linear_combination iha1 + ihb1
    · rw [hadd]
      linear_combination iha2 + ihb2
  | sub a b iha ihb =>
    obtain ⟨iha1, iha2⟩ := iha
    obtain ⟨ihb1, ihb2⟩ := ihb
    simp only [evalMal, evalField, MalShare.sub, SHShare.sub, reconstruct3]
      at iha1 iha2 ihb1 ihb2 ⊢
    constructor
    · linear_combination iha1 - ihb1
    · rw [hsub]
      linear_combination iha2 - ihb2
  | neg a iha =>
    obtain ⟨iha1, iha2⟩ := iha
    simp only [evalMal, evalField, MalShare.neg, SHShare.neg, reconstruct3]
      at iha1 iha2 ⊢
    constructor
    · linear_combination -iha1
    · rw [hneg]
      linear_combination -iha2
  | mulConst a c iha =>
    obtain ⟨iha1, iha2⟩ := iha
    simp only [evalMal, evalField, MalShare.mulConst, SHShare.mulConst, reconstruct3]
      at iha1 iha2 ⊢
    constructor
    · linear_combination iha1 * c
    · rw [hmul]
      linear_combination iha2 * toExt c

/-- Witness for C5: concrete malicious sharings of `3` with `r = 5` over
`ZMod 31` (the extension embedding is the identity, as for every prime field),
evaluated on the expression `(v + v) * 2`. -/
theorem malicious_share_algebra_witness :
    reconstruct3
      (evalMal (fun g => g) (fun _ => (⟨⟨1, 1⟩, ⟨5, 5⟩⟩ : MalShare (ZMod 31) (ZMod 31)))
        (Expr.mulConst (Expr.add (Expr.var 0) (Expr.var 0)) 2)).x
      (evalMal (fun g => g) (fun _ => (⟨⟨1, 1⟩, ⟨5, 5⟩⟩ : MalShare (ZMod 31) (ZMod 31)))
        (Expr.mulConst (Expr.add (Expr.var 0) (Expr.var 0)) 2)).x
      (evalMal (fun g => g) (fun _ => (⟨⟨1, 1⟩, ⟨5, 5⟩⟩ : MalShare (ZMod 31) (ZMod 31)))
        (Expr.mulConst (Expr.add (Expr.var 0) (Expr.var 0)) 2)).x =
      evalField (fun _ => (3 : ZMod 31))
        (Expr.mulConst (Expr.add (Expr.var 0) (Expr.var 0)) 2) ∧
    reconstruct3
      (evalMal (fun g => g) (fun _ => (⟨⟨1, 1⟩, ⟨5, 5⟩⟩ : MalShare (ZMod 31) (ZMod 31)))
        (Expr.mulConst (Expr.add (Expr.var 0) (Expr.var 0)) 2)).rx
      (evalMal (fun g => g) (fun _ => (⟨⟨1, 1⟩, ⟨5, 5⟩⟩ : MalShare (ZMod 31) (ZMod 31)))
        (Expr.mulConst (Expr.add (Expr.var 0) (Expr.var 0)) 2)).rx
      (evalMal (fun g => g) (fun _ => (⟨⟨1, 1⟩, ⟨5, 5⟩⟩ : MalShare (ZMod 31) (ZMod 31)))
        (Expr.mulConst (Expr.add (Expr.var 0) (Expr.var 0)) 2)).rx =
      (5 : ZMod 31) *
        (fun g => g) (evalField (fun _ => (3 : ZMod 31))
          (Expr.mulConst (Expr.add (Expr.var 0) (Expr.var 0)) 2)) :=
  (malicious_share_algebra (ZMod 31) (ZMod 31) (fun g => g)
    (fun _ _ => rfl) (fun _ _ => rfl) (fun _ => rfl) (fun _ _ => rfl)
    5 (fun _ => 3)
    (fun _ => ⟨⟨1, 1⟩, ⟨5, 5⟩⟩) (fun _ => ⟨⟨1, 1⟩, ⟨5, 5⟩⟩) (fun _ => ⟨⟨1, 1⟩, ⟨5, 5⟩⟩)
    (fun _ => rfl) (fun _ => rfl)).2.2.2.2
    (Expr.mulConst (Expr.add (Expr.var 0) (Expr.var 0)) 2)

/-- The opaque wrapper around unvalidated downgrades; its content is released
only through `access_without_downgrade`. -/
structure UnauthorizedDowngradeWrapper (T : Type) where
  val : T
deriving DecidableEq

/-- `ThisCodeIsAuthorizedToDowngradeFromMalicious::access_without_downgrade`. -/
def access_without_downgrade (w : UnauthorizedDowngradeWrapper T) : T := w.val

/-- `Downgrade for AdditiveShare<F>`: the wrapper holds exactly the `x`
component. -/
def MalShare.downgrade (s : MalShare F G) :
    UnauthorizedDowngradeWrapper (SHShare F) := ⟨s.x⟩

/-- `Downgrade for (T, U)`: downgrade both components and wrap the pair once,
unwrapping the inner results. -/
def downgradePair (da : α → UnauthorizedDowngradeWrapper α2)
    (db : β → UnauthorizedDowngradeWrapper β2) (p : α × β) :
    UnauthorizedDowngradeWrapper (α2 × β2) :=
  ⟨(access_without_downgrade (da p.1), access_without_downgrade (db p.2))⟩

/-- `Downgrade for BitDecomposed<T>` and `Downgrade for Vec<T>`: downgrade
every element (the `join_all` / `seq_join` joins preserve order), unwrap each,
and wrap the collection once. -/
def downgradeList (da : α → UnauthorizedDowngradeWrapper α2) (l : List α) :
    UnauthorizedDowngradeWrapper (List α2) :=
  ⟨l.map (fun v => access_without_downgrade (da v))⟩

/-- C9 (downgrade discipline for collections): downgrading a malicious share
yields exactly its `x` component inside the wrapper; downgrading a pair or a
vector (also bit-decomposed vectors) yields one outermost wrapper containing
the unwrapped element downgrades, element by element in the original order and
with the original length. -/
theorem downgrade_discipline (F G α α2 β β2 : Type)
    (da : α → UnauthorizedDowngradeWrapper α2)
    (db : β → UnauthorizedDowngradeWrapper β2) :
    (∀ s : MalShare F G, (MalShare.downgrade s).val = s.x) ∧
    (∀ p : α × β, (downgradePair da db p).val =
      ((da p.1).val, (db p.2).val)) ∧
    (∀ l : List α, (downgradeList da l).val.length = l.length) ∧
    (∀ (l : List α) (i : Nat),
      (downgradeList da l).val.get? i = (l.get? i).map (fun v => (da v).val)) := by
  refine ⟨fun s => rfl, fun p => rfl, fun l => ?_, fun l i => ?_⟩
  · simp [downgradeList, access_without_downgrade]
  · simp [downgradeList, access_without_downgrade, List.get?_eq_getElem?, List.getElem?_map]

/-!
On-wire serialization of malicious shares.  The component codecs for the
semi-honest shares are modelled from the spec (fixed byte width per field
type; the semi-honest `Serializable` impls are not under src/): a `Gf2`
element is one byte and a `Gf32Bit` element four little-endian bytes, a
semi-honest share serializing as `left || right`.
-/

/-- Modelled from the spec: semi-honest `Gf2` share codec, two bytes. -/
def shGf2Ser (s : SHShare (ZMod 2)) : List Nat := [s.left.val, s.right.val]

def shGf2De (bytes : List Nat) : SHShare (ZMod 2) :=
  ⟨((bytes.getD 0 0 : Nat) : ZMod 2), ((bytes.getD 1 0 : Nat) : ZMod 2)⟩

/-- Four little-endian bytes of a 32-bit value. -/
def natToLe4 (v : Nat) : List Nat :=
  [v % 256, v / 256 % 256, v / 65536 % 256, v / 16777216 % 256]

def natFromLe (bytes : List Nat) : Nat :=
  bytes.foldr (fun b acc => b + 256 * acc) 0

/-- Modelled from the spec: semi-honest `Gf32Bit` share codec, eight bytes. -/
def shGf32Ser (s : SHShare Nat) : List Nat := natToLe4 s.left ++ natToLe4 s.right

def shGf32De (bytes : List Nat) : SHShare Nat :=
  ⟨natFromLe (bytes.take 4), natFromLe (bytes.drop 4)⟩

/-- `Serializable::serialize` for the malicious share: the `x` bytes followed
by the `rx` bytes (`buf.split_at_mut` at the `x` width). -/
def malSerialize (serX : SHShare F → List Nat) (serRx : SHShare G → List Nat)
    (s : MalShare F G) : List Nat :=
  serX s.x ++ serRx s.rx

/-- `Serializable::deserialize` for the malicious share, following the source:
`x` is read from `buf[..sx]` where `sx` is the `x` share's width, but the `rx`
slice starts at `buf[srx..]` — the EXTENDED field share's width.
`GenericArray::from_slice` requires each slice length to match exactly
(modelled by the guards), panicking otherwise (`none`). -/
def malDeserialize (sx srx : Nat) (deX : List Nat → SHShare F)
    (deRx : List Nat → SHShare G) (buf : List Nat) : Option (MalShare F G) :=
  let xb := buf.take sx
  let rxb := buf.drop srx
  if xb.length = sx ∧ rxb.length = srx then some ⟨deX xb, deRx rxb⟩ else none

/-- C2 (code bug): serialize writes `x || rx` as claimed, but deserializing a
serialized malicious `Gf2` share panics instead of returning the original:
the `rx` slice starts at the extended field's share width (8) rather than at
the `x` share width (2), leaving a 2-byte slice where
`GenericArray::from_slice` requires 8 bytes.  So the round trip fails for
`Gf2`, whose extension field `Gf32Bit` has a different width. -/
theorem malicious_serde_gf2_roundtrip_fails :
    malSerialize shGf2Ser shGf32Ser
      (⟨⟨1, 0⟩, ⟨3, 5⟩⟩ : MalShare (ZMod 2) Nat) =
      [1, 0, 3, 0, 0, 0, 5, 0, 0, 0] ∧
    malDeserialize 2 8 shGf2De shGf32De
      (malSerialize shGf2Ser shGf32Ser (⟨⟨1, 0⟩, ⟨3, 5⟩⟩ : MalShare (ZMod 2) Nat)) =
      none ∧
    (∀ s : MalShare (ZMod 2) Nat,
      malDeserialize 2 8 shGf2De shGf32De (malSerialize shGf2Ser shGf32Ser s) =
        none) := by
  refine ⟨by decide, by decide, ?_⟩
  intro s
  simp [malSerialize, malDeserialize, shGf2Ser, shGf32Ser, natToLe4]

end IPA
